import Mathlib

/-!
Verification of the CDataFile INI-style persistence engine.

The repository ships the interface header `CDataFile.h`; the structure
definitions, constant tables and flag values below are taken directly from it.
The function bodies (parser, serializer, accessors, mutators) are not part of
the repository snapshot, so they are modelled from the specification, as the
doc comment of each such definition records.  Strings are embedded as
`List Char`; the file-handling collaborators (`readAllLines`/`writeAllLines`)
are represented by explicit arguments and results.
-/

/-- `WhiteSpace` constant from `CDataFile.h`: characters removed by `Trim`. -/
def WhiteSpace : List Char := [' ', '\t', '\n', '\r']

/-- `CommentIndicators` constant from `CDataFile.h` (the string `";#"`):
first character is the one used when writing comments to disk. -/
def CommentIndicators : List Char := [';', '#']

/-- `EqualIndicators` constant from `CDataFile.h` (the string `"=:"`):
first character is the one used when writing assignments to disk. -/
def EqualIndicators : List Char := ['=', ':']

/-- `AUTOCREATE_SECTIONS` flag from `CDataFile.h` (`1L<<1`). -/
def AUTOCREATE_SECTIONS : Nat := 2

/-- `AUTOCREATE_KEYS` flag from `CDataFile.h` (`1L<<2`). -/
def AUTOCREATE_KEYS : Nat := 4

/-- `MAX_BUFFER_LEN` constant from `CDataFile.h`. -/
def MAX_BUFFER_LEN : Nat := 512

/-- Character membership in the whitespace set. -/
def isWS (c : Char) : Bool := WhiteSpace.contains c

/-- Strip leading whitespace. -/
def ltrim (s : List Char) : List Char := s.dropWhile isWS

/-- Strip trailing whitespace. -/
def rtrim (s : List Char) : List Char := (s.reverse.dropWhile isWS).reverse

/-- `Trim` from `CDataFile.h`: strips characters of `WhiteSpace` from the head
and tail of a string (§4.1 of the specification). -/
def Trim (s : List Char) : List Char := rtrim (ltrim s)

/-- `CompareNoCase` from `CDataFile.h`, modelled from the spec (§4.1
`compareCaseInsensitive`): equality after uppercasing both strings. -/
def CompareNoCase (a b : List Char) : Bool :=
  decide (a.map Char.toUpper = b.map Char.toUpper)

/-- `st_key` structure from `CDataFile.h`: name, value and comment of a key. -/
structure t_Key where
  szKey : List Char
  szValue : List Char
  szComment : List Char
deriving DecidableEq, Repr

/-- `st_section` structure from `CDataFile.h`: name, comment and ordered key
list of a section. -/
structure t_Section where
  szName : List Char
  szComment : List Char
  Keys : List t_Key
deriving DecidableEq, Repr

/-- Overwrite the first case-insensitive match of `name` in `ks` (value and
comment replaced in place, name of the first occurrence kept), appending a new
key when there is no match.  Modelled from the spec: parser assignment policy
(§4.2 step 4). -/
def setKeyIn (ks : List t_Key) (name value cmt : List Char) : List t_Key :=
  match ks with
  | [] => [⟨name, value, cmt⟩]
  | k :: rest =>
    if CompareNoCase k.szKey name then ⟨k.szKey, value, cmt⟩ :: rest
    else k :: setKeyIn rest name value cmt

/-- Apply `f` to the element at index `i`, leaving other positions unchanged. -/
def modifyIdx (l : List t_Section) (i : Nat) (f : t_Section → t_Section) :
    List t_Section :=
  match l, i with
  | [], _ => []
  | x :: xs, 0 => f x :: xs
  | x :: xs, n + 1 => x :: modifyIdx xs n f

/-- Split a line at the first occurrence of an `EqualIndicators` character,
`none` when the line contains no such character.  Modelled from the spec:
assignment detection (§4.1, §4.2 step 4). -/
def splitEq : List Char → Option (List Char × List Char)
  | [] => none
  | c :: rest =>
    if EqualIndicators.contains c then some ([], rest)
    else
      match splitEq rest with
      | some (l, r) => some (c :: l, r)
      | none => none

/-- Parser state carried across lines (§4.2): the accumulated pending comment
and the index of the section new keys append to (`none` before the implicit
global section is lazily created). -/
structure ParseState where
  secs : List t_Section
  cur : Option Nat
  pending : List Char
deriving DecidableEq, Repr

/-- Modelled from the spec: the per-line step of the parser inside
`CDataFile::Load` (§4.2), whose body is not in `src/`.  Trims the line, then
dispatches on blank / comment / section header / assignment / malformed. -/
def parseLine (st : ParseState) (raw : List Char) : ParseState :=
  match Trim raw with
  | [] => st
  | c :: rest =>
    if CommentIndicators.contains c then
      let content := match rest with
        | ' ' :: r => r
        | r => r
      { st with pending := if st.pending = [] then content
                           else st.pending ++ '\n' :: content }
    else if c = '[' ∧ (c :: rest).getLast? = some ']' then
      let name := Trim rest.dropLast
      match st.secs.findIdx? (fun sec => CompareNoCase sec.szName name) with
      | some i => { st with cur := some i, pending := [] }
      | none =>
        { secs := st.secs ++ [⟨name, st.pending, []⟩],
          cur := some st.secs.length, pending := [] }
    else
      match splitEq (c :: rest) with
      | some (lhs, rhs) =>
        let name := Trim lhs
        let value := Trim rhs
        match st.cur with
        | some i =>
          { secs := modifyIdx st.secs i
              (fun sec => { sec with Keys := setKeyIn sec.Keys name value st.pending }),
            cur := some i, pending := [] }
        | none =>
          { secs := st.secs ++ [⟨[], [], [⟨name, value, st.pending⟩]⟩],
            cur := some st.secs.length, pending := [] }
      | none => st

/-- Modelled from the spec: the parser of `CDataFile::Load` (§4.2), a single
sequential pass over the raw lines starting from the empty document. -/
def ParseLines (ls : List (List Char)) : List t_Section :=
  (ls.foldl parseLine ⟨[], none, []⟩).secs

/-- `CommentStr` from `CDataFile.h`, modelled from the spec (§4.1
`formatComment`): prefix a non-empty comment line with the canonical indicator
and a space unless it already starts with an indicator. -/
def CommentStr (l : List Char) : List Char :=
  match l with
  | [] => []
  | c :: _ => if CommentIndicators.contains c then l else ';' :: ' ' :: l

/-- Split a comment on newline characters (the parser joins pending comment
lines with newlines, §4.2 step 2). -/
def splitNl : List Char → List (List Char)
  | [] => [[]]
  | c :: rest =>
    if c = '\n' then [] :: splitNl rest
    else
      match splitNl rest with
      | [] => [[c]]
      | l :: ls => (c :: l) :: ls

/-- Newline-join, the inverse of `splitNl`. -/
def joinNl : List (List Char) → List Char
  | [] => []
  | [l] => l
  | l :: ls => l ++ '\n' :: joinNl ls

/-- Modelled from the spec: comment emission of the serializer (§4.3): each
comment line formatted by `CommentStr`, nothing for an empty comment. -/
def serializeComment (c : List Char) : List (List Char) :=
  if c = [] then [] else (splitNl c).map CommentStr

/-- Modelled from the spec: serializer output for one key (§4.3): comment
lines, then `name=value` using `EqualIndicators` head. -/
def serializeKey (k : t_Key) : List (List Char) :=
  serializeComment k.szComment ++ [k.szKey ++ '=' :: k.szValue]

/-- Modelled from the spec: serializer output for one section (§4.3): comment
lines, a `[name]` header unless the section is the implicit global one, then
the keys in order. -/
def serializeSection (s : t_Section) : List (List Char) :=
  serializeComment s.szComment ++
    (if s.szName = [] then [] else ['[' :: (s.szName ++ [']'])]) ++
    (s.Keys.map serializeKey).flatten

/-- Modelled from the spec: the serializer of `CDataFile::Save` (§4.3), with a
blank separator line between sections (not before the first). -/
def SerializeLines (d : List t_Section) : List (List Char) :=
  match d with
  | [] => []
  | s :: rest =>
    serializeSection s ++ (rest.map (fun s' => [] :: serializeSection s')).flatten

/-- The `CDataFile` class data members from `CDataFile.h`. -/
structure CDataFile where
  m_Flags : Nat
  m_Sections : List t_Section
  m_szFileName : List Char
  m_bDirty : Bool
deriving DecidableEq, Repr

/-- `GetSection`, modelled from the spec (§4.4): first case-insensitive match
among the sections, `none` when absent. -/
def GetSection (df : CDataFile) (szSection : List Char) : Option t_Section :=
  df.m_Sections.find? (fun sec => CompareNoCase sec.szName szSection)

/-- `GetKey`, modelled from the spec (§4.4): resolve the section (falling back
to the implicit global section when the requested name is unmatched), then the
first case-insensitive key match inside it. -/
def GetKey (df : CDataFile) (szKey szSection : List Char) : Option t_Key :=
  let psec := match GetSection df szSection with
    | some sec => some sec
    | none => GetSection df []
  match psec with
  | none => none
  | some sec => sec.Keys.find? (fun key => CompareNoCase key.szKey szKey)

/-- `GetValue`, modelled from the spec (§4.4): raw value of the resolved key,
degrading to the empty string when the key is missing. -/
def GetValue (df : CDataFile) (szKey szSection : List Char) : List Char :=
  match GetKey df szKey szSection with
  | some key => key.szValue
  | none => []

/-- `GetString`, modelled from the spec (§4.4): same as `GetValue`. -/
def GetString (df : CDataFile) (szKey szSection : List Char) : List Char :=
  GetValue df szKey szSection

/-- Leading-digit accumulator used by the numeric coercions: consume digits
from the front, stopping at the first non-digit. -/
def readDigits : List Char → Nat → Nat
  | c :: rest, acc =>
    if c.isDigit then readDigits rest (acc * 10 + (c.toNat - 48)) else acc
  | [], acc => acc

/-- Modelled from the spec: `atoi`-style coercion of a raw value to an
integer (optional sign, leading digits, trailing text ignored, `0` when no
digits). -/
def atoiModel (s : List Char) : Int :=
  match s with
  | '-' :: rest => - (readDigits rest 0 : Int)
  | '+' :: rest => (readDigits rest 0 : Int)
  | _ => (readDigits s 0 : Int)

/-- Modelled from the spec: `atof`-style coercion of a raw value to a number
(optional sign, integer digits, optional fraction digits), over `Rat` in place
of the machine float. -/
def atofModel (s : List Char) : Rat :=
  let t := match s with
    | '-' :: r => r
    | '+' :: r => r
    | r => r
  let neg : Bool := match s with
    | '-' :: _ => true
    | _ => false
  let intPart := t.takeWhile Char.isDigit
  let rest := t.dropWhile Char.isDigit
  let frac := match rest with
    | '.' :: r => r.takeWhile Char.isDigit
    | _ => []
  let num := readDigits (intPart ++ frac) 0
  let q : Rat := if frac.isEmpty then (num : Rat) else (num : Rat) / (10 : Rat) ^ frac.length
  if neg then -q else q

/-- `GetInt`, modelled from the spec (§4.4): integer coercion of `GetValue`,
defaulting to `0` when the key is missing. -/
def GetInt (df : CDataFile) (szKey szSection : List Char) : Int :=
  atoiModel (GetValue df szKey szSection)

/-- `GetFloat`, modelled from the spec (§4.4): numeric coercion of `GetValue`,
defaulting to `0.0` when the key is missing. -/
def GetFloat (df : CDataFile) (szKey szSection : List Char) : Rat :=
  atofModel (GetValue df szKey szSection)

/-- Modelled from the spec (§4.4): the boolean token set recognized by
`GetBool` (case-insensitive `true` / `1` / `yes` / `on`). -/
def boolOfStr (v : List Char) : Bool :=
  CompareNoCase v ['t', 'r', 'u', 'e'] || CompareNoCase v ['1'] ||
    CompareNoCase v ['y', 'e', 's'] || CompareNoCase v ['o', 'n']

/-- `GetBool`, modelled from the spec (§4.4): boolean coercion of `GetValue`,
defaulting to `false` when the key is missing. -/
def GetBool (df : CDataFile) (szKey szSection : List Char) : Bool :=
  boolOfStr (GetValue df szKey szSection)

/-- Replace value and (when the supplied comment is non-empty) comment of the
first case-insensitive match of `k`, in place.  Modelled from the spec
(§4.4 typed set, existing-key branch). -/
def updateKey (ks : List t_Key) (k v c : List Char) : List t_Key :=
  match ks with
  | [] => []
  | key :: rest =>
    if CompareNoCase key.szKey k then
      { key with szValue := v, szComment := if c = [] then key.szComment else c } :: rest
    else key :: updateKey rest k v c

/-- Apply `f` to the first case-insensitive match of `s` among the sections. -/
def modifySec (secs : List t_Section) (s : List Char) (f : t_Section → t_Section) :
    List t_Section :=
  match secs with
  | [] => []
  | sec :: rest =>
    if CompareNoCase sec.szName s then f sec :: rest
    else sec :: modifySec rest s f

/-- `SetValue`, modelled from the spec: body not in `src/`; follows the §4.4
typed-set contract: a missing section is created only under
`AUTOCREATE_SECTIONS`, a missing key only under `AUTOCREATE_KEYS`, an existing
key is overwritten in place, failure performs no mutation (§7), success sets
the dirty flag. -/
def SetValue (df : CDataFile) (szKey szValue szComment szSection : List Char) :
    Bool × CDataFile :=
  match GetSection df szSection with
  | none =>
    if df.m_Flags &&& AUTOCREATE_SECTIONS ≠ 0 then
      if df.m_Flags &&& AUTOCREATE_KEYS ≠ 0 then
        (true, { df with
          m_Sections := df.m_Sections ++ [⟨szSection, [], [⟨szKey, szValue, szComment⟩]⟩],
          m_bDirty := true })
      else (false, df)
    else (false, df)
  | some sec =>
    if (sec.Keys.find? (fun key => CompareNoCase key.szKey szKey)).isSome then
      (true, { df with
        m_Sections := modifySec df.m_Sections szSection
          (fun sc => { sc with Keys := updateKey sc.Keys szKey szValue szComment }),
        m_bDirty := true })
    else if df.m_Flags &&& AUTOCREATE_KEYS ≠ 0 then
      (true, { df with
        m_Sections := modifySec df.m_Sections szSection
          (fun sc => { sc with Keys := sc.Keys ++ [⟨szKey, szValue, szComment⟩] }),
        m_bDirty := true })
    else (false, df)

/-- Decimal digits of a natural number. -/
def natToStr (n : Nat) : List Char := Nat.toDigits 10 n

/-- Text form of an integer. -/
def intToStr (n : Int) : List Char :=
  if n < 0 then '-' :: natToStr n.natAbs else natToStr n.toNat

/-- Modelled from the spec: text form of a numeric value written by
`SetFloat` (the exact format is unspecified by the spec; only the string is
passed through to `SetValue`). -/
def ratToStr (q : Rat) : List Char :=
  intToStr q.num ++ '/' :: natToStr q.den

/-- `SetFloat`, modelled from the spec (§4.4): converts and delegates to
`SetValue`. -/
def SetFloat (df : CDataFile) (szKey : List Char) (fValue : Rat)
    (szComment szSection : List Char) : Bool × CDataFile :=
  SetValue df szKey (ratToStr fValue) szComment szSection

/-- `SetInt`, modelled from the spec (§4.4): converts and delegates to
`SetValue`. -/
def SetInt (df : CDataFile) (szKey : List Char) (nValue : Int)
    (szComment szSection : List Char) : Bool × CDataFile :=
  SetValue df szKey (intToStr nValue) szComment szSection

/-- `SetBool`, modelled from the spec (§4.4): converts and delegates to
`SetValue`. -/
def SetBool (df : CDataFile) (szKey : List Char) (bValue : Bool)
    (szComment szSection : List Char) : Bool × CDataFile :=
  SetValue df szKey
    (if bValue then ['T', 'r', 'u', 'e'] else ['F', 'a', 'l', 's', 'e'])
    szComment szSection

/-- `CreateSection`, modelled from the spec (§4.4): unconditionally creates
the section, bypassing the autocreate flags; a no-op success when a
case-insensitive match already exists (idempotent). -/
def CreateSection (df : CDataFile) (szSection szComment : List Char) :
    Bool × CDataFile :=
  match GetSection df szSection with
  | some _ => (true, df)
  | none =>
    (true, { df with
      m_Sections := df.m_Sections ++ [⟨szSection, szComment, []⟩],
      m_bDirty := true })

/-- The `CreateSection` overload taking a pre-populated key list, modelled
from the spec (§4.4): no-op success when the section already exists. -/
def CreateSectionKeys (df : CDataFile) (szSection szComment : List Char)
    (Keys : List t_Key) : Bool × CDataFile :=
  match GetSection df szSection with
  | some _ => (true, df)
  | none =>
    (true, { df with
      m_Sections := df.m_Sections ++ [⟨szSection, szComment, Keys⟩],
      m_bDirty := true })

/-- `CreateKey`, modelled from the spec (§4.4): unconditionally creates,
bypassing the autocreate flags (which only gate the Set* path); the section is
created when missing, and an existing key is overwritten in place rather than
duplicated (§3 invariant). -/
def CreateKey (df : CDataFile) (szKey szValue szComment szSection : List Char) :
    Bool × CDataFile :=
  match GetSection df szSection with
  | none =>
    (true, { df with
      m_Sections := df.m_Sections ++ [⟨szSection, [], [⟨szKey, szValue, szComment⟩]⟩],
      m_bDirty := true })
  | some sec =>
    if (sec.Keys.find? (fun key => CompareNoCase key.szKey szKey)).isSome then
      (true, { df with
        m_Sections := modifySec df.m_Sections szSection
          (fun sc => { sc with Keys := updateKey sc.Keys szKey szValue szComment }),
        m_bDirty := true })
    else
      (true, { df with
        m_Sections := modifySec df.m_Sections szSection
          (fun sc => { sc with Keys := sc.Keys ++ [⟨szKey, szValue, szComment⟩] }),
        m_bDirty := true })

/-- Remove the first case-insensitive match of `k`, `none` when absent. -/
def deleteKeyIn (ks : List t_Key) (k : List Char) : Option (List t_Key) :=
  match ks with
  | [] => none
  | key :: rest =>
    if CompareNoCase key.szKey k then some rest
    else (deleteKeyIn rest k).map (key :: ·)

/-- Delete `k` from the first case-insensitive match of section `s`. -/
def delKeySecs : List t_Section → List Char → List Char → Option (List t_Section)
  | [], _, _ => none
  | sec :: rest, k, s =>
    if CompareNoCase sec.szName s then
      (deleteKeyIn sec.Keys k).map (fun ks => { sec with Keys := ks } :: rest)
    else (delKeySecs rest k s).map (sec :: ·)

/-- `DeleteKey`, modelled from the spec (§4.4): removes the first
case-insensitive match, `false` when section or key is not found. -/
def DeleteKey (df : CDataFile) (szKey szFromSection : List Char) :
    Bool × CDataFile :=
  match delKeySecs df.m_Sections szKey szFromSection with
  | some secs => (true, { df with m_Sections := secs, m_bDirty := true })
  | none => (false, df)

/-- Remove the first case-insensitive section match, `none` when absent. -/
def delSec : List t_Section → List Char → Option (List t_Section)
  | [], _ => none
  | sec :: rest, s =>
    if CompareNoCase sec.szName s then some rest
    else (delSec rest s).map (sec :: ·)

/-- `DeleteSection`, modelled from the spec (§4.4): removes the first
case-insensitive match, `false` when not found. -/
def DeleteSection (df : CDataFile) (szSection : List Char) : Bool × CDataFile :=
  match delSec df.m_Sections szSection with
  | some secs => (true, { df with m_Sections := secs, m_bDirty := true })
  | none => (false, df)

/-- Replace the comment of the first case-insensitive key match. -/
def setKeyCmtIn (ks : List t_Key) (k c : List Char) : Option (List t_Key) :=
  match ks with
  | [] => none
  | key :: rest =>
    if CompareNoCase key.szKey k then some ({ key with szComment := c } :: rest)
    else (setKeyCmtIn rest k c).map (key :: ·)

/-- Locate the key inside the first case-insensitive section match and replace
its comment. -/
def setKeyCmtSecs : List t_Section → List Char → List Char → List Char →
    Option (List t_Section)
  | [], _, _, _ => none
  | sec :: rest, k, c, s =>
    if CompareNoCase sec.szName s then
      (setKeyCmtIn sec.Keys k c).map (fun ks => { sec with Keys := ks } :: rest)
    else (setKeyCmtSecs rest k c s).map (sec :: ·)

/-- `SetKeyComment`, modelled from the spec (§4.4): locates the key and
replaces its comment, `false` when not found. -/
def SetKeyComment (df : CDataFile) (szKey szComment szSection : List Char) :
    Bool × CDataFile :=
  match setKeyCmtSecs df.m_Sections szKey szComment szSection with
  | some secs => (true, { df with m_Sections := secs, m_bDirty := true })
  | none => (false, df)

/-- Replace the comment of the first case-insensitive section match. -/
def setSecCmt : List t_Section → List Char → List Char → Option (List t_Section)
  | [], _, _ => none
  | sec :: rest, s, c =>
    if CompareNoCase sec.szName s then some ({ sec with szComment := c } :: rest)
    else (setSecCmt rest s c).map (sec :: ·)

/-- `SetSectionComment`, modelled from the spec (§4.4): locates the section
and replaces its comment, `false` when not found. -/
def SetSectionComment (df : CDataFile) (szSection szComment : List Char) :
    Bool × CDataFile :=
  match setSecCmt df.m_Sections szSection szComment with
  | some secs => (true, { df with m_Sections := secs, m_bDirty := true })
  | none => (false, df)

/-- `SectionCount`, modelled from the spec (§4.4): number of sections. -/
def SectionCount (df : CDataFile) : Nat := df.m_Sections.length

/-- `KeyCount`, modelled from the spec (§4.4): total number of keys across all
sections. -/
def KeyCount (df : CDataFile) : Nat :=
  (df.m_Sections.map (fun s => s.Keys.length)).sum

/-- `ClearDirty` from `CDataFile.h`: clear the `m_bDirty` flag so that the
next save takes the no-write path. -/
def ClearDirty (df : CDataFile) : CDataFile := { df with m_bDirty := false }

/-- `Load`, modelled from the spec (§4.5, §7): the `readAllLines` collaborator
is an explicit `Option` argument (`none` = IOError).  On failure it returns
`false` leaving the document untouched; on success it replaces the document
wholesale with the parse result and resets the dirty flag. -/
def Load (df : CDataFile) (szFileName : List Char)
    (readResult : Option (List (List Char))) : Bool × CDataFile :=
  match readResult with
  | none => (false, df)
  | some ls =>
    (true, { m_Flags := df.m_Flags, m_Sections := ParseLines ls,
             m_szFileName := szFileName, m_bDirty := false })

/-- `Save`, modelled from the spec (§4.5, §7): skips the write entirely when
the dirty flag is clear; otherwise serializes the document (the written lines
stand in for the `writeAllLines` collaborator) and clears the flag. -/
def Save (df : CDataFile) : Option (List (List Char)) × CDataFile :=
  if df.m_bDirty then (some (SerializeLines df.m_Sections), ClearDirty df)
  else (none, df)

/-! ### Basic lemmas about the text primitives -/

theorem cnc_iff {a b : List Char} :
    CompareNoCase a b = true ↔ a.map Char.toUpper = b.map Char.toUpper := by
  simp [CompareNoCase]

theorem cnc_refl (a : List Char) : CompareNoCase a a = true := by
  simp [CompareNoCase]

theorem cnc_trans {a b c : List Char} (h1 : CompareNoCase a b = true)
    (h2 : CompareNoCase b c = true) : CompareNoCase a c = true := by
  rw [cnc_iff] at *; rw [h1, h2]

theorem cnc_symm {a b : List Char} (h : CompareNoCase a b = true) :
    CompareNoCase b a = true := by
  rw [cnc_iff] at *; rw [h]

/-- Predicates testing a name against case-insensitively equal strings agree. -/
theorem cnc_congr_right {s s' : List Char} (h : CompareNoCase s s' = true)
    (x : List Char) : CompareNoCase x s = CompareNoCase x s' := by
  rw [cnc_iff] at h
  simp [CompareNoCase, h]

theorem ltrim_cons_of_neg {c : Char} {l : List Char} (h : isWS c = false) :
    ltrim (c :: l) = c :: l := by
  simp [ltrim, List.dropWhile_cons, h]

theorem rtrim_concat_of_neg {c : Char} {l : List Char} (h : isWS c = false) :
    rtrim (l ++ [c]) = l ++ [c] := by
  simp [rtrim, List.reverse_append, List.dropWhile_cons, h]

theorem Trim_nil : Trim [] = [] := rfl

/-- A list whose head and last characters are not whitespace is its own trim. -/
theorem Trim_eq_self {l : List Char}
    (h1 : ∀ c, l.head? = some c → isWS c = false)
    (h2 : ∀ c, l.getLast? = some c → isWS c = false) : Trim l = l := by
  match l with
  | [] => rfl
  | c :: t =>
    have hc : isWS c = false := h1 c rfl
    have hne : c :: t ≠ ([] : List Char) := by simp
    have hl : (c :: t).dropLast ++ [(c :: t).getLast hne] = c :: t :=
      List.dropLast_append_getLast hne
    have hlast : isWS ((c :: t).getLast hne) = false :=
      h2 _ (List.getLast?_eq_getLast _ hne)
    rw [Trim, ltrim_cons_of_neg hc, ← hl, rtrim_concat_of_neg hlast]

theorem length_dropWhile_le (p : Char → Bool) (l : List Char) :
    (l.dropWhile p).length ≤ l.length := by
  induction l with
  | nil => simp
  | cons c t ih =>
    rw [List.dropWhile_cons]
    by_cases h : p c = true
    · simp [h]
      omega
    · simp [h]

theorem length_rtrim_le (l : List Char) : (rtrim l).length ≤ l.length := by
  have := length_dropWhile_le isWS l.reverse
  simpa [rtrim] using this

theorem length_ltrim_le (l : List Char) : (ltrim l).length ≤ l.length :=
  length_dropWhile_le isWS l

/-- Converse direction: if a nonempty list is its own trim, its head is not
whitespace. -/
theorem Trim_self_head {c : Char} {t : List Char} (h : Trim (c :: t) = c :: t) :
    isWS c = false := by
  by_contra hws
  rw [Bool.not_eq_false] at hws
  have h1 : ltrim (c :: t) = ltrim t := by simp [ltrim, List.dropWhile_cons, hws]
  have : (Trim (c :: t)).length ≤ t.length := by
    rw [Trim, h1]
    exact le_trans (length_rtrim_le _) (length_ltrim_le _)
  rw [h] at this
  simp at this

/-- If a list is its own trim, `ltrim` already leaves it unchanged. -/
theorem ltrim_of_Trim_self {l : List Char} (h : Trim l = l) : ltrim l = l := by
  have h1 : (Trim l).length ≤ (ltrim l).length := length_rtrim_le (ltrim l)
  have h2 : (ltrim l).length ≤ l.length := length_ltrim_le l
  rw [h] at h1
  exact (List.dropWhile_suffix isWS).eq_of_length (le_antisymm h2 h1)

/-- If a list is its own trim, its last character is not whitespace. -/
theorem Trim_self_last {l : List Char} {c : Char} (h : Trim l = l)
    (hc : l.getLast? = some c) : isWS c = false := by
  by_contra hws
  rw [Bool.not_eq_false] at hws
  have hr : rtrim l = l := by
    have := ltrim_of_Trim_self h
    rw [Trim, this] at h
    exact h
  have hne : l ≠ [] := by rintro rfl; simp at hc
  have hl : l.dropLast ++ [l.getLast hne] = l := List.dropLast_append_getLast hne
  have hcl : l.getLast hne = c := by
    have := List.getLast?_concat (a := l.getLast hne) l.dropLast
    rw [hl, hc] at this
    exact (Option.some_inj.mp this).symm
  have h2 : rtrim l = rtrim l.dropLast := by
    conv_lhs => rw [← hl]
    simp [rtrim, List.reverse_append, List.dropWhile_cons, hcl, hws]
  have h3 : l.length ≤ l.dropLast.length := by
    calc l.length = (rtrim l).length := by rw [hr]
      _ = (rtrim l.dropLast).length := by rw [h2]
      _ ≤ l.dropLast.length := length_rtrim_le _
  have h4 : l.length = l.dropLast.length + 1 := by
    conv_lhs => rw [← hl]
    rw [List.length_append, List.length_singleton]
  omega

theorem splitEq_append (key value : List Char)
    (h : ∀ c ∈ key, c ∉ EqualIndicators) :
    splitEq (key ++ '=' :: value) = some (key, value) := by
  induction key with
  | nil =>
    have hmem : '=' ∈ EqualIndicators := by decide
    simp [splitEq, hmem]
  | cons c t ih =>
    have hc : c ∉ EqualIndicators := h c (by simp)
    have ht : ∀ x ∈ t, x ∉ EqualIndicators := fun x hx => h x (by simp [hx])
    simp [splitEq, hc, ih ht]

theorem splitNl_ne_nil (l : List Char) : splitNl l ≠ [] := by
  induction l with
  | nil => simp [splitNl]
  | cons c t ih =>
    rw [splitNl]
    by_cases h : c = '\n'
    · simp [h]
    · simp only [if_neg h]
      cases hs : splitNl t with
      | nil => simp
      | cons a as => simp

theorem joinNl_splitNl (l : List Char) : joinNl (splitNl l) = l := by
  induction l with
  | nil => rfl
  | cons c t ih =>
    rw [splitNl]
    by_cases h : c = '\n'
    · subst h
      rw [if_pos rfl]
      cases hs : splitNl t with
      | nil => exact absurd hs (splitNl_ne_nil t)
      | cons a as =>
        rw [hs] at ih
        show joinNl ([] :: a :: as) = '\n' :: t
        have e1 : joinNl ([] :: a :: as) = [] ++ '\n' :: joinNl (a :: as) := rfl
        rw [e1, ih]
        rfl
    · rw [if_neg h]
      cases hs : splitNl t with
      | nil => exact absurd hs (splitNl_ne_nil t)
      | cons a as =>
        rw [hs] at ih
        show joinNl ((c :: a) :: as) = c :: t
        cases as with
        | nil =>
          have e1 : joinNl [c :: a] = c :: a := rfl
          have e2 : joinNl [a] = a := rfl
          rw [e2] at ih
          rw [e1, ih]
        | cons b bs =>
          have e1 : joinNl ((c :: a) :: b :: bs) = (c :: a) ++ '\n' :: joinNl (b :: bs) := rfl
          have e2 : joinNl (a :: b :: bs) = a ++ '\n' :: joinNl (b :: bs) := rfl
          rw [e2] at ih
          rw [e1, ← ih]
          rfl

/-! ### Serializability conditions for the round trip -/

/-- The last character exists and is not whitespace. -/
def lastNotWS (l : List Char) : Bool :=
  match l.getLast? with
  | some e => !isWS e
  | none => false

/-- A comment line that survives a serialize/parse cycle: non-empty, not
starting with a comment indicator, not ending in whitespace. -/
def goodCmtLine : List Char → Bool
  | [] => false
  | c :: t => !CommentIndicators.contains c && lastNotWS (c :: t)

/-- A comment that survives a serialize/parse cycle: empty, or with every
line good. -/
def goodComment (c : List Char) : Bool :=
  c = [] || (splitNl c).all goodCmtLine

/-- An assignment line's left side must not look like a comment. -/
def keyHeadOk : List Char → Bool
  | [] => true
  | c :: _ => !CommentIndicators.contains c

/-- An assignment line must not take the shape of a section header. -/
def keyNotHeader (k : t_Key) : Bool :=
  match k.szKey, k.szValue.getLast? with
  | '[' :: _, some ']' => false
  | _, _ => true

/-- A key that serializes to a line parsed back to the very same key. -/
def goodKey (k : t_Key) : Prop :=
  Trim k.szKey = k.szKey ∧ (∀ c ∈ k.szKey, c ∉ EqualIndicators) ∧
    keyHeadOk k.szKey = true ∧ Trim k.szValue = k.szValue ∧
    keyNotHeader k = true ∧ goodComment k.szComment = true

instance (k : t_Key) : Decidable (goodKey k) := by
  unfold goodKey
  infer_instance

/-- Key names of a section are pairwise case-insensitively distinct. -/
def uniqKeys : List t_Key → Bool
  | [] => true
  | k :: rest =>
    rest.all (fun k2 => !CompareNoCase k.szKey k2.szKey) && uniqKeys rest

/-- A section that survives a serialize/parse cycle; the implicit global
section must carry no comment and at least one key (it serializes with no
header line). -/
def goodSection (s : t_Section) : Prop :=
  Trim s.szName = s.szName ∧ goodComment s.szComment = true ∧
    (s.szName = [] → s.szComment = [] ∧ s.Keys ≠ []) ∧
    uniqKeys s.Keys = true ∧ ∀ k ∈ s.Keys, goodKey k

instance (s : t_Section) : Decidable (goodSection s) := by
  unfold goodSection
  infer_instance

/-- Section names are pairwise case-insensitively distinct. -/
def uniqSecs : List t_Section → Bool
  | [] => true
  | x :: rest =>
    rest.all (fun y => !CompareNoCase x.szName y.szName) && uniqSecs rest

/-- Serializability of a whole document: unique section names, good sections,
and the implicit global section (when present) only in first position. -/
def goodDoc (d : List t_Section) : Prop :=
  uniqSecs d = true ∧ (∀ s ∈ d, goodSection s) ∧ ∀ s ∈ d.tail, s.szName ≠ []

instance (d : List t_Section) : Decidable (goodDoc d) := by
  unfold goodDoc
  infer_instance

/-! ### Stepping lemmas for the parser -/

theorem lastNotWS_elim {l : List Char} (h : lastNotWS l = true) :
    ∃ e, l.getLast? = some e ∧ isWS e = false := by
  unfold lastNotWS at h
  cases he : l.getLast? with
  | none => rw [he] at h; simp at h
  | some e =>
    rw [he] at h
    simp at h
    exact ⟨e, rfl, h⟩

theorem parseLine_of_trim_nil (st : ParseState) {raw : List Char}
    (h : Trim raw = []) : parseLine st raw = st := by
  simp only [parseLine, h]

theorem parseLine_blank (st : ParseState) : parseLine st [] = st :=
  parseLine_of_trim_nil st rfl

theorem parseLine_commentStr (st : ParseState) {c : Char} {t : List Char}
    (hc : c ∉ CommentIndicators) (hLast : lastNotWS (c :: t) = true) :
    parseLine st (CommentStr (c :: t)) =
      { st with pending := if st.pending = [] then c :: t
                           else st.pending ++ '\n' :: c :: t } := by
  have hcs : CommentStr (c :: t) = ';' :: ' ' :: c :: t := by
    simp [CommentStr, hc]
  obtain ⟨e, he, hew⟩ := lastNotWS_elim hLast
  have hTrim : Trim (';' :: ' ' :: c :: t) = ';' :: ' ' :: c :: t := by
    apply Trim_eq_self
    · intro x hx
      simp at hx
      subst hx
      decide
    · intro x hx
      rw [List.getLast?_cons_cons, List.getLast?_cons_cons, he] at hx
      cases hx
      exact hew
  have hmem : ';' ∈ CommentIndicators := by decide
  rw [hcs]
  simp only [parseLine, hTrim]
  simp [hmem]

theorem findIdx?_none_of_all {p : t_Section → Bool} {l : List t_Section}
    (h : ∀ x ∈ l, p x = false) : ∀ i, List.findIdx? p l i = none := by
  induction l with
  | nil => intro i; rfl
  | cons x xs ih =>
    intro i
    rw [List.findIdx?_cons, h x (by simp)]
    simp only [Bool.false_eq_true, if_false]
    exact ih (fun y hy => h y (by simp [hy])) (i + 1)

/-- Parsing the header line `[name]` when no case-insensitive match exists:
a new section carrying the pending comment is appended. -/
theorem parseLine_header_new (st : ParseState) {name : List Char}
    (hT : Trim name = name)
    (hnone : ∀ sec ∈ st.secs, CompareNoCase sec.szName name = false) :
    parseLine st ('[' :: (name ++ [']'])) =
      ⟨st.secs ++ [⟨name, st.pending, []⟩], some st.secs.length, []⟩ := by
  have hTrim : Trim ('[' :: (name ++ [']'])) = '[' :: (name ++ [']']) := by
    apply Trim_eq_self
    · intro x hx
      simp at hx
      subst hx
      decide
    · intro x hx
      have : (('[' :: name) ++ [']']).getLast? = some ']' := List.getLast?_concat _
      rw [show ('[' :: (name ++ [']'])) = ('[' :: name) ++ [']'] by simp] at hx
      rw [this] at hx
      cases hx
      decide
  have hnc : '[' ∉ CommentIndicators := by decide
  have hlast : ('[' :: (name ++ [']'])).getLast? = some ']' := by
    rw [show ('[' :: (name ++ [']'])) = ('[' :: name) ++ [']'] by simp]
    exact List.getLast?_concat _
  have hdl : (name ++ [']']).dropLast = name := List.dropLast_concat
  simp only [parseLine, hTrim]
  rw [if_neg (by simp [hnc]), if_pos (by simp [hlast]), hdl, hT,
    findIdx?_none_of_all hnone 0]

theorem setKeyIn_append {ks : List t_Key} {name value cmt : List Char}
    (h : ∀ k ∈ ks, CompareNoCase k.szKey name = false) :
    setKeyIn ks name value cmt = ks ++ [⟨name, value, cmt⟩] := by
  induction ks with
  | nil => rfl
  | cons k rest ih =>
    rw [setKeyIn, if_neg (by simp [h k (by simp)]),
      ih (fun x hx => h x (by simp [hx]))]
    rfl

theorem modifyIdx_append_last (xs : List t_Section) (y : t_Section)
    (f : t_Section → t_Section) :
    modifyIdx (xs ++ [y]) xs.length f = xs ++ [f y] := by
  induction xs with
  | nil => rfl
  | cons x rest ih =>
    simp only [List.cons_append, List.length_cons, modifyIdx]
    exact congrArg (List.cons x) ih

/-- The serialized assignment line of a key with trimmed name and value is its
own trim. -/
theorem Trim_assign_line {key value : List Char}
    (hK : Trim key = key) (hV : Trim value = value) :
    Trim (key ++ '=' :: value) = key ++ '=' :: value := by
  apply Trim_eq_self
  · intro x hx
    rw [List.head?_append] at hx
    cases hk : key with
    | nil =>
      rw [hk] at hx
      simp at hx
      subst hx
      decide
    | cons c t =>
      rw [hk] at hx
      simp at hx
      subst hx
      rw [hk] at hK
      exact Trim_self_head hK
  · intro x hx
    rw [List.getLast?_append] at hx
    cases hv : value with
    | nil =>
      rw [hv] at hx
      simp at hx
      subst hx
      decide
    | cons c t =>
      rw [hv] at hx
      rw [List.getLast?_cons_cons] at hx
      have hne : (c :: t) ≠ ([] : List Char) := by simp
      have he : (c :: t).getLast? = some ((c :: t).getLast hne) :=
        List.getLast?_eq_getLast _ hne
      rw [he] at hx
      simp at hx
      subst hx
      rw [hv] at hV
      exact Trim_self_last hV he

/-- Parsing the serialized assignment line of a good key: the key (name,
value, pending comment) is entered into the current section, or into a freshly
created global section when there is none. -/
theorem parseLine_assign (st : ParseState) {k : t_Key} (hg : goodKey k) :
    parseLine st (k.szKey ++ '=' :: k.szValue) =
      match st.cur with
      | some i =>
        ⟨modifyIdx st.secs i
          (fun sec => { sec with
            Keys := setKeyIn sec.Keys k.szKey k.szValue st.pending }),
         some i, []⟩
      | none =>
        ⟨st.secs ++ [⟨[], [], [⟨k.szKey, k.szValue, st.pending⟩]⟩],
         some st.secs.length, []⟩ := by
  obtain ⟨h1, h2, h3, h4, h5, h6⟩ := hg
  have hTrim := Trim_assign_line h1 h4
  cases hk : k.szKey with
  | nil =>
    rw [hk] at hTrim
    rw [List.nil_append] at hTrim ⊢
    have hsp : splitEq ('=' :: k.szValue) = some ([], k.szValue) := by
      simpa using splitEq_append [] k.szValue (by simp)
    simp only [parseLine, hTrim]
    rw [if_neg (by decide), if_neg (by rintro ⟨hc, -⟩; exact absurd hc (by decide)),
      hsp]
    simp only [Trim_nil, h4]
  | cons c t =>
    have h3' : CommentIndicators.contains c = false := by
      rw [hk] at h3
      simp only [keyHeadOk, Bool.not_eq_true'] at h3
      exact h3
    have hhd : ¬(c = '[' ∧ (c :: (t ++ '=' :: k.szValue)).getLast? = some ']') := by
      rintro ⟨rfl, hlast⟩
      rw [show ('[' :: (t ++ '=' :: k.szValue)) = ('[' :: t) ++ '=' :: k.szValue by
        simp] at hlast
      rw [List.getLast?_append] at hlast
      cases hv : k.szValue with
      | nil =>
        rw [hv] at hlast
        simp at hlast
      | cons v vs =>
        rw [hv] at hlast
        rw [List.getLast?_cons_cons] at hlast
        have hne : (v :: vs) ≠ ([] : List Char) := by simp
        have he : (v :: vs).getLast? = some ((v :: vs).getLast hne) :=
          List.getLast?_eq_getLast _ hne
        rw [he] at hlast
        simp at hlast
        have hvl : k.szValue.getLast? = some ']' := by
          rw [hv, he, hlast]
        simp only [keyNotHeader, hk, hvl] at h5
        simp at h5
    have hsp : splitEq (c :: (t ++ '=' :: k.szValue)) = some (c :: t, k.szValue) := by
      rw [← List.cons_append]
      apply splitEq_append
      rw [← hk]
      exact h2
    rw [hk] at hTrim
    rw [List.cons_append] at hTrim ⊢
    simp only [parseLine, hTrim]
    rw [if_neg (by rw [h3']; simp), if_neg hhd, hsp]
    have h1' : Trim (c :: t) = c :: t := by rw [← hk]; exact h1
    simp only [h1', h4]

/-! ### Folding serialized fragments through the parser -/

theorem goodCmtLine_elim {c : Char} {t : List Char}
    (h : goodCmtLine (c :: t) = true) :
    c ∉ CommentIndicators ∧ lastNotWS (c :: t) = true := by
  simp only [goodCmtLine, Bool.and_eq_true, Bool.not_eq_true'] at h
  exact ⟨by simpa using h.1, h.2⟩

theorem parseAll_comment_lines (ls : List (List Char)) (secs : List t_Section)
    (cur : Option Nat) (p : List Char) (hne : ls ≠ [])
    (hgood : ∀ l ∈ ls, goodCmtLine l = true) :
    (ls.map CommentStr).foldl parseLine ⟨secs, cur, p⟩ =
      ⟨secs, cur, if p = [] then joinNl ls else p ++ '\n' :: joinNl ls⟩ := by
  induction ls generalizing p with
  | nil => cases hne rfl
  | cons l rest ih =>
    obtain ⟨c, t, rfl⟩ : ∃ c t, l = c :: t := by
      cases l with
      | nil =>
        have := hgood [] (by simp)
        simp [goodCmtLine] at this
      | cons c t => exact ⟨c, t, rfl⟩
    obtain ⟨hc, hl⟩ := goodCmtLine_elim (hgood (c :: t) (by simp))
    rw [List.map_cons, List.foldl_cons, parseLine_commentStr _ hc hl]
    cases rest with
    | nil =>
      have e1 : joinNl [c :: t] = c :: t := rfl
      simp [e1]
    | cons r2 rs =>
      have hp1 : (if p = [] then c :: t else p ++ '\n' :: c :: t) ≠ [] := by
        by_cases hp : p = [] <;> simp [hp]
      rw [ih]
      · have e2 : joinNl ((c :: t) :: r2 :: rs) = (c :: t) ++ '\n' :: joinNl (r2 :: rs) := rfl
        by_cases hp : p = [] <;> simp [hp, e2, hp1]
      · simp
      · intro x hx
        exact hgood x (by simp [hx])

theorem parseAll_serializeComment (cmt : List Char) (secs : List t_Section)
    (cur : Option Nat) (hgood : goodComment cmt = true) :
    (serializeComment cmt).foldl parseLine ⟨secs, cur, []⟩ = ⟨secs, cur, cmt⟩ := by
  by_cases h : cmt = []
  · subst h
    simp [serializeComment]
  · have hall : ∀ l ∈ splitNl cmt, goodCmtLine l = true := by
      simp only [goodComment, Bool.or_eq_true, decide_eq_true_eq] at hgood
      rcases hgood with h0 | h0
      · exact absurd h0 h
      · simpa [List.all_eq_true] using h0
    rw [serializeComment, if_neg h,
      parseAll_comment_lines (splitNl cmt) secs cur [] (splitNl_ne_nil cmt) hall]
    simp [joinNl_splitNl]

theorem uniqKeys_head_not {a : t_Key} {l : List t_Key}
    (h : uniqKeys (a :: l) = true) :
    (∀ b ∈ l, CompareNoCase a.szKey b.szKey = false) ∧ uniqKeys l = true := by
  rw [uniqKeys] at h
  simp only [Bool.and_eq_true, List.all_eq_true, Bool.not_eq_true'] at h
  exact h

theorem uniqKeys_mid {acc : List t_Key} {k : t_Key} {rest : List t_Key}
    (h : uniqKeys (acc ++ k :: rest) = true) :
    ∀ a ∈ acc, CompareNoCase a.szKey k.szKey = false := by
  induction acc with
  | nil => simp
  | cons a acc' ih =>
    rw [List.cons_append] at h
    obtain ⟨h1, h2⟩ := uniqKeys_head_not h
    intro x hx
    rcases (by simpa using hx : x = a ∨ x ∈ acc') with rfl | hx'
    · exact h1 k (by simp)
    · exact ih h2 x hx'

theorem parseAll_serializeKey (secs0 : List t_Section) (n cmt : List Char)
    (acc : List t_Key) {k : t_Key} (hg : goodKey k)
    (hnew : ∀ a ∈ acc, CompareNoCase a.szKey k.szKey = false) :
    (serializeKey k).foldl parseLine
        ⟨secs0 ++ [⟨n, cmt, acc⟩], some secs0.length, []⟩ =
      ⟨secs0 ++ [⟨n, cmt, acc ++ [k]⟩], some secs0.length, []⟩ := by
  rw [serializeKey, List.foldl_append,
    parseAll_serializeComment k.szComment _ _ hg.2.2.2.2.2,
    List.foldl_cons, List.foldl_nil, parseLine_assign _ hg]
  show (⟨modifyIdx (secs0 ++ [⟨n, cmt, acc⟩]) secs0.length
      (fun sec => { sec with Keys := setKeyIn sec.Keys k.szKey k.szValue k.szComment }),
    some secs0.length, []⟩ : ParseState) = _
  rw [modifyIdx_append_last]
  simp [setKeyIn_append hnew]

theorem parseAll_keys (ks : List t_Key) (secs0 : List t_Section)
    (n cmt : List Char) (acc : List t_Key)
    (hgood : ∀ k ∈ ks, goodKey k) (huniq : uniqKeys (acc ++ ks) = true) :
    ((ks.map serializeKey).flatten).foldl parseLine
        ⟨secs0 ++ [⟨n, cmt, acc⟩], some secs0.length, []⟩ =
      ⟨secs0 ++ [⟨n, cmt, acc ++ ks⟩], some secs0.length, []⟩ := by
  induction ks generalizing acc with
  | nil => simp
  | cons k rest ih =>
    rw [List.map_cons, List.flatten_cons, List.foldl_append,
      parseAll_serializeKey secs0 n cmt acc (hgood k (by simp)) (uniqKeys_mid huniq)]
    have huniq' : uniqKeys ((acc ++ [k]) ++ rest) = true := by
      rw [List.append_assoc]
      simpa using huniq
    rw [ih (acc ++ [k]) (fun x hx => hgood x (by simp [hx])) huniq']
    simp

theorem parseAll_serializeSection_named (s : t_Section) (secs : List t_Section)
    (cur : Option Nat) (hgood : goodSection s) (hname : s.szName ≠ [])
    (hnomatch : ∀ sec ∈ secs, CompareNoCase sec.szName s.szName = false) :
    (serializeSection s).foldl parseLine ⟨secs, cur, []⟩ =
      ⟨secs ++ [s], some secs.length, []⟩ := by
  obtain ⟨hT, hC, -, hU, hK⟩ := hgood
  rw [serializeSection, if_neg hname, List.foldl_append, List.foldl_append,
    parseAll_serializeComment s.szComment _ _ hC,
    List.foldl_cons, List.foldl_nil,
    parseLine_header_new _ hT hnomatch]
  have := parseAll_keys s.Keys secs s.szName s.szComment [] hK (by simpa using hU)
  rw [this]
  simp

theorem parseAll_serializeSection_global (s : t_Section) (hgood : goodSection s)
    (hname : s.szName = []) :
    (serializeSection s).foldl parseLine ⟨[], none, []⟩ = ⟨[s], some 0, []⟩ := by
  obtain ⟨hT, hC, hG, hU, hK⟩ := hgood
  obtain ⟨hcmt, hkeys⟩ := hG hname
  cases hks : s.Keys with
  | nil => exact absurd hks hkeys
  | cons k1 krest =>
    rw [serializeSection, if_pos hname, hcmt, hks]
    have e0 : serializeComment [] = [] := rfl
    rw [e0, List.nil_append, List.nil_append, List.map_cons, List.flatten_cons,
      List.foldl_append, serializeKey, List.foldl_append]
    have hk1 : goodKey k1 := hK k1 (by simp [hks])
    rw [parseAll_serializeComment k1.szComment _ _ hk1.2.2.2.2.2,
      List.foldl_cons, List.foldl_nil, parseLine_assign _ hk1]
    show ((krest.map serializeKey).flatten).foldl parseLine
        (⟨([] : List t_Section) ++ [⟨[], [], [k1]⟩],
          some (List.length ([] : List t_Section)), []⟩ : ParseState) = _
    have hkrest : ∀ k ∈ krest, goodKey k := fun x hx => hK x (by simp [hks, hx])
    have huniq' : uniqKeys ([k1] ++ krest) = true := by
      rw [List.singleton_append, ← hks]
      exact hU
    rw [parseAll_keys krest [] [] [] [k1] hkrest huniq']
    have : s = ⟨[], [], k1 :: krest⟩ := by
      cases s
      simp_all
    rw [this]
    rfl

theorem uniqSecs_head_not {a : t_Section} {l : List t_Section}
    (h : uniqSecs (a :: l) = true) :
    (∀ b ∈ l, CompareNoCase a.szName b.szName = false) ∧ uniqSecs l = true := by
  rw [uniqSecs] at h
  simp only [Bool.and_eq_true, List.all_eq_true, Bool.not_eq_true'] at h
  exact h

theorem uniqSecs_mid {acc : List t_Section} {s : t_Section} {rest : List t_Section}
    (h : uniqSecs (acc ++ s :: rest) = true) :
    ∀ a ∈ acc, CompareNoCase a.szName s.szName = false := by
  induction acc with
  | nil => simp
  | cons a acc' ih =>
    rw [List.cons_append] at h
    obtain ⟨h1, h2⟩ := uniqSecs_head_not h
    intro x hx
    rcases (by simpa using hx : x = a ∨ x ∈ acc') with rfl | hx'
    · exact h1 s (by simp)
    · exact ih h2 x hx'

theorem parseAll_sections_rest (ds : List t_Section) (secs0 : List t_Section)
    (cur : Option Nat)
    (hgood : ∀ s ∈ ds, goodSection s) (hnames : ∀ s ∈ ds, s.szName ≠ [])
    (huniq : uniqSecs (secs0 ++ ds) = true) :
    ∃ cur', ((ds.map (fun s => [] :: serializeSection s)).flatten).foldl
        parseLine ⟨secs0, cur, []⟩ = ⟨secs0 ++ ds, cur', []⟩ := by
  induction ds generalizing secs0 cur with
  | nil => exact ⟨cur, by simp⟩
  | cons s rest ih =>
    rw [List.map_cons, List.flatten_cons, List.foldl_append, List.foldl_cons,
      parseLine_blank,
      parseAll_serializeSection_named s secs0 cur (hgood s (by simp))
        (hnames s (by simp)) (uniqSecs_mid huniq)]
    have huniq' : uniqSecs ((secs0 ++ [s]) ++ rest) = true := by
      rw [List.append_assoc]
      simpa using huniq
    obtain ⟨cur', hcur⟩ := ih (secs0 ++ [s]) (some secs0.length)
      (fun x hx => hgood x (by simp [hx])) (fun x hx => hnames x (by simp [hx])) huniq'
    rw [hcur]
    exact ⟨cur', by simp⟩

/-- Conditional round trip: a serializable document reparses to itself. -/
theorem parse_serialize_good (d : List t_Section) (h : goodDoc d) :
    ParseLines (SerializeLines d) = d := by
  obtain ⟨hu, hg, htail⟩ := h
  cases d with
  | nil => rfl
  | cons s rest =>
    rw [SerializeLines, ParseLines, List.foldl_append]
    have hrest_good : ∀ x ∈ rest, goodSection x := fun x hx => hg x (by simp [hx])
    have hrest_names : ∀ x ∈ rest, x.szName ≠ [] := fun x hx => htail x (by simpa using hx)
    by_cases hn : s.szName = []
    · rw [parseAll_serializeSection_global s (hg s (by simp)) hn]
      obtain ⟨cur', hcur⟩ := parseAll_sections_rest rest [s] (some 0)
        hrest_good hrest_names (by simpa using hu)
      rw [hcur]
      rfl
    · have e := parseAll_serializeSection_named s [] none (hg s (by simp)) hn (by simp)
      rw [List.nil_append] at e
      rw [e]
      obtain ⟨cur', hcur⟩ := parseAll_sections_rest rest [s] (some ([] : List t_Section).length)
        hrest_good hrest_names (by simpa using hu)
      rw [hcur]
      rfl

/-! ### Sample values used by the concrete witnesses -/

/-- A small well-formed input file: a commented section with two keys. -/
def sampleLines : List (List Char) :=
  [[';', ' ', 't', 'o', 'p'], ['[', 'N', 'e', 't', ']'],
   ['h', 'o', 's', 't', '=', 'l', 'h'], ['p', 'o', 'r', 't', '=', '8', '0']]

/-- A one-section document used by the API witnesses. -/
def sampleDoc : List t_Section :=
  [⟨['N', 'e', 't'], [], [⟨['h', 'o', 's', 't'], ['l', 'h'], []⟩]⟩]

/-- Sample object with no autocreate flags, not dirty. -/
def df0 : CDataFile := ⟨0, sampleDoc, [], false⟩

/-- Sample object with both autocreate flags set, not dirty. -/
def df6 : CDataFile := ⟨6, sampleDoc, [], false⟩

/-- Sample object with the dirty flag set. -/
def dfDirty : CDataFile := ⟨0, sampleDoc, [], true⟩

/-- Sample object whose document holds one key in the implicit global
section. -/
def dfG : CDataFile := ⟨0, [⟨[], [], [⟨['g'], ['1'], []⟩]⟩], [], false⟩

/-! ### Claim theorems -/

/-- C1 (amended): serializing and reparsing reproduces a document exactly
(same sections with the same names, comments and ordered key lists; same keys
with the same names, values and comments) provided the document satisfies the
serializability conditions `goodDoc`: case-insensitively unique trimmed
section names, an implicit global section only in first position with empty
comment and at least one key, case-insensitively unique keys per section,
trimmed key names free of assignment indicators not beginning with a comment
indicator nor forming a header-shaped line, trimmed values, and comments whose
lines are non-empty, do not begin with a comment indicator and do not end in
whitespace.  The claim as stated (for every parse result) is refuted by
`C1_round_trip_counterexample`. -/
theorem C1_round_trip (d : List t_Section) (h : goodDoc d) :
    ParseLines (SerializeLines d) = d :=
  parse_serialize_good d h

/-- C1 counterexample: the document parsed from the single well-formed line
`[]` (an empty unnamed global section) serializes to no lines at all, so
parsing the serialized form does not reproduce it. -/
theorem C1_round_trip_counterexample :
    ParseLines (SerializeLines (ParseLines [['[', ']']])) ≠
      ParseLines [['[', ']']] := by
  decide

/-- C1 witness: the parse of a concrete well-formed file satisfies the
serializability conditions and round-trips. -/
theorem C1_round_trip_witness :
    goodDoc (ParseLines sampleLines) ∧
      ParseLines (SerializeLines (ParseLines sampleLines)) =
        ParseLines sampleLines :=
  ⟨by decide, C1_round_trip (ParseLines sampleLines) (by decide)⟩

/-- C4: when no matching key is resolved, the typed getters never fail and
return the fixed defaults: `GetValue`/`GetString` the empty string, `GetFloat`
`0.0`, `GetInt` `0`, `GetBool` `false`. -/
theorem C4_getters_default (df : CDataFile) (szKey szSection : List Char)
    (h : GetKey df szKey szSection = none) :
    GetValue df szKey szSection = [] ∧ GetString df szKey szSection = [] ∧
      GetFloat df szKey szSection = 0 ∧ GetInt df szKey szSection = 0 ∧
      GetBool df szKey szSection = false := by
  have hv : GetValue df szKey szSection = [] := by
    simp only [GetValue, h]
  refine ⟨hv, ?_, ?_, ?_, ?_⟩
  · rw [GetString]
    exact hv
  · rw [GetFloat, hv]
    simp [atofModel, readDigits]
  · rw [GetInt, hv]
    simp [atoiModel, readDigits]
  · rw [GetBool, hv]
    decide

/-- C4 witness: a concrete absent key/section pair yields all the defaults. -/
theorem C4_getters_default_witness :
    GetKey df0 ['z'] ['W'] = none ∧ GetValue df0 ['z'] ['W'] = [] ∧
      GetString df0 ['z'] ['W'] = [] ∧ GetFloat df0 ['z'] ['W'] = 0 ∧
      GetInt df0 ['z'] ['W'] = 0 ∧ GetBool df0 ['z'] ['W'] = false := by
  have h := C4_getters_default df0 ['z'] ['W'] (by decide)
  exact ⟨by decide, h.1, h.2.1, h.2.2.1, h.2.2.2.1, h.2.2.2.2⟩

/-- C7: lookups with names equal up to letter case return the same results,
for the section lookup, the key lookup, and every typed getter. -/
theorem C7_case_insensitive_lookup (df : CDataFile) (k k' s s' : List Char)
    (hk : CompareNoCase k k' = true) (hs : CompareNoCase s s' = true) :
    GetSection df s = GetSection df s' ∧ GetKey df k s = GetKey df k' s' ∧
      GetValue df k s = GetValue df k' s' ∧
      GetString df k s = GetString df k' s' ∧
      GetInt df k s = GetInt df k' s' ∧ GetFloat df k s = GetFloat df k' s' ∧
      GetBool df k s = GetBool df k' s' := by
  have hpredS : (fun sec : t_Section => CompareNoCase sec.szName s) =
      (fun sec => CompareNoCase sec.szName s') :=
    funext fun sec => cnc_congr_right hs sec.szName
  have hpredK : (fun key : t_Key => CompareNoCase key.szKey k) =
      (fun key => CompareNoCase key.szKey k') :=
    funext fun key => cnc_congr_right hk key.szKey
  have hsec : GetSection df s = GetSection df s' := by
    rw [GetSection, GetSection, hpredS]
  have hkey : GetKey df k s = GetKey df k' s' := by
    simp only [GetKey]
    rw [hsec]
    simp only [hpredK]
  refine ⟨hsec, hkey, ?_, ?_, ?_, ?_, ?_⟩ <;>
    simp only [GetValue, GetString, GetInt, GetFloat, GetBool, hkey]

/-- C7 witness: lookups in a concrete document under case-changed names. -/
theorem C7_case_insensitive_lookup_witness :
    CompareNoCase ['h', 'o', 's', 't'] ['H', 'O', 'S', 'T'] = true ∧
      GetValue df0 ['h', 'o', 's', 't'] ['N', 'e', 't'] =
        GetValue df0 ['H', 'O', 'S', 'T'] ['n', 'E', 'T'] := by
  refine ⟨by decide, ?_⟩
  exact (C7_case_insensitive_lookup df0 ['h', 'o', 's', 't'] ['H', 'O', 'S', 'T']
    ['N', 'e', 't'] ['n', 'E', 'T'] (by decide) (by decide)).2.2.1

/-- C8: a typed-getter lookup with a non-empty section name matching no
section does not fail: it falls back to the implicit global (empty-named)
section, and returns that key's value when present there. -/
theorem C8_global_fallback (df : CDataFile) (szKey szSection : List Char)
    (_hne : szSection ≠ []) (hnone : GetSection df szSection = none) :
    GetKey df szKey szSection = GetKey df szKey [] ∧
      GetValue df szKey szSection = GetValue df szKey [] ∧
      ∀ key, GetKey df szKey [] = some key →
        GetValue df szKey szSection = key.szValue := by
  have hkey : GetKey df szKey szSection = GetKey df szKey [] := by
    simp only [GetKey, hnone]
    cases hg : GetSection df [] with
    | none => rfl
    | some sec => rfl
  refine ⟨hkey, by simp only [GetValue, hkey], ?_⟩
  intro key hkk
  rw [GetValue, hkey, hkk]

/-- C8 witness: a concrete document with a global-section key resolved through
a section name that matches nothing. -/
theorem C8_global_fallback_witness :
    GetSection dfG ['W'] = none ∧
      GetValue dfG ['g'] ['W'] = GetValue dfG ['g'] [] ∧
      GetValue dfG ['g'] ['W'] = ['1'] := by
  have h := C8_global_fallback dfG ['g'] ['W'] (by decide) (by decide)
  refine ⟨by decide, h.2.1, ?_⟩
  exact h.2.2 ⟨['g'], ['1'], []⟩ (by decide)

/-- C9: a failed load (the read collaborator reports an I/O error) returns
`false` and leaves the prior document state completely untouched: sections,
file name, and dirty flag unchanged. -/
theorem C9_load_failure_untouched (df : CDataFile) (szFileName : List Char) :
    Load df szFileName none = (false, df) ∧
      (Load df szFileName none).2.m_Sections = df.m_Sections ∧
      (Load df szFileName none).2.m_bDirty = df.m_bDirty ∧
      (Load df szFileName none).2.m_szFileName = df.m_szFileName :=
  ⟨rfl, rfl, rfl, rfl⟩

/-- Appending a key to the first case-insensitive section match (which must
exist) raises the total key count by exactly one. -/
theorem keyCountList_modifySec_append (secs : List t_Section) (s : List Char)
    (key : t_Key)
    (hfound : (secs.find? (fun sec => CompareNoCase sec.szName s)).isSome = true) :
    ((modifySec secs s (fun sc => { sc with Keys := sc.Keys ++ [key] })).map
        (fun x => x.Keys.length)).sum =
      ((secs.map (fun x => x.Keys.length)).sum) + 1 := by
  induction secs with
  | nil => simp at hfound
  | cons sec rest ih =>
    by_cases hm : CompareNoCase sec.szName s = true
    · rw [modifySec, if_pos hm]
      simp only [List.map_cons, List.sum_cons, List.length_append,
        List.length_singleton]
      omega
    · have hm' : CompareNoCase sec.szName s = false := by simpa using hm
      rw [List.find?_cons, hm'] at hfound
      rw [modifySec, if_neg hm]
      simp only [List.map_cons, List.sum_cons, ih hfound]
      omega

/-- C2: for a missing target section, `SetValue` and the typed wrappers
return `false` and leave the object untouched when both autocreate flags are
unset, and return `true` adding exactly one section and one key when both are
set. -/
theorem C2_setvalue_autocreate_gating (df : CDataFile)
    (szKey szValue szComment szSection : List Char) (n : Int) (q : Rat)
    (b : Bool) (hsec : GetSection df szSection = none) :
    ((df.m_Flags &&& AUTOCREATE_SECTIONS = 0 ∧
        df.m_Flags &&& AUTOCREATE_KEYS = 0) →
      SetValue df szKey szValue szComment szSection = (false, df) ∧
        SetFloat df szKey q szComment szSection = (false, df) ∧
        SetInt df szKey n szComment szSection = (false, df) ∧
        SetBool df szKey b szComment szSection = (false, df)) ∧
    ((df.m_Flags &&& AUTOCREATE_SECTIONS ≠ 0 ∧
        df.m_Flags &&& AUTOCREATE_KEYS ≠ 0) →
      (SetValue df szKey szValue szComment szSection).1 = true ∧
        SectionCount (SetValue df szKey szValue szComment szSection).2 =
          SectionCount df + 1 ∧
        KeyCount (SetValue df szKey szValue szComment szSection).2 =
          KeyCount df + 1 ∧
        (SetInt df szKey n szComment szSection).1 = true ∧
        SectionCount (SetInt df szKey n szComment szSection).2 =
          SectionCount df + 1 ∧
        KeyCount (SetInt df szKey n szComment szSection).2 = KeyCount df + 1 ∧
        (SetFloat df szKey q szComment szSection).1 = true ∧
        SectionCount (SetFloat df szKey q szComment szSection).2 =
          SectionCount df + 1 ∧
        KeyCount (SetFloat df szKey q szComment szSection).2 = KeyCount df + 1 ∧
        (SetBool df szKey b szComment szSection).1 = true ∧
        SectionCount (SetBool df szKey b szComment szSection).2 =
          SectionCount df + 1 ∧
        KeyCount (SetBool df szKey b szComment szSection).2 = KeyCount df + 1) := by
  have aux1 : df.m_Flags &&& AUTOCREATE_SECTIONS = 0 →
      ∀ v, SetValue df szKey v szComment szSection = (false, df) := by
    intro hA v
    simp only [SetValue, hsec]
    rw [if_neg (by simp [hA])]
  have aux2 : df.m_Flags &&& AUTOCREATE_SECTIONS ≠ 0 →
      df.m_Flags &&& AUTOCREATE_KEYS ≠ 0 →
      ∀ v, SetValue df szKey v szComment szSection =
        (true, { df with
          m_Sections := df.m_Sections ++ [⟨szSection, [], [⟨szKey, v, szComment⟩]⟩],
          m_bDirty := true }) := by
    intro hA hK v
    simp only [SetValue, hsec]
    rw [if_pos hA, if_pos hK]
  constructor
  · rintro ⟨hA, -⟩
    exact ⟨aux1 hA _, by rw [SetFloat]; exact aux1 hA _,
      by rw [SetInt]; exact aux1 hA _, by rw [SetBool]; exact aux1 hA _⟩
  · rintro ⟨hA, hK⟩
    have hT : ∀ v, (SetValue df szKey v szComment szSection).1 = true := by
      intro v
      rw [aux2 hA hK v]
    have hSC : ∀ v, SectionCount (SetValue df szKey v szComment szSection).2 =
        SectionCount df + 1 := by
      intro v
      rw [aux2 hA hK v]
      simp [SectionCount]
    have hKC : ∀ v, KeyCount (SetValue df szKey v szComment szSection).2 =
        KeyCount df + 1 := by
      intro v
      rw [aux2 hA hK v]
      simp [KeyCount]
    exact ⟨hT _, hSC _, hKC _,
      by rw [SetInt]; exact hT _, by rw [SetInt]; exact hSC _,
      by rw [SetInt]; exact hKC _,
      by rw [SetFloat]; exact hT _, by rw [SetFloat]; exact hSC _,
      by rw [SetFloat]; exact hKC _,
      by rw [SetBool]; exact hT _, by rw [SetBool]; exact hSC _,
      by rw [SetBool]; exact hKC _⟩

/-- C2 witness: concrete objects with the flags unset and set. -/
theorem C2_setvalue_autocreate_gating_witness :
    GetSection df0 ['X'] = none ∧
      SetValue df0 ['a'] ['1'] [] ['X'] = (false, df0) ∧
      SetInt df0 ['a'] 7 [] ['X'] = (false, df0) ∧
      (SetValue df6 ['a'] ['1'] [] ['X']).1 = true ∧
      SectionCount (SetValue df6 ['a'] ['1'] [] ['X']).2 = SectionCount df6 + 1 ∧
      KeyCount (SetValue df6 ['a'] ['1'] [] ['X']).2 = KeyCount df6 + 1 := by
  have h0 := C2_setvalue_autocreate_gating df0 ['a'] ['1'] [] ['X'] 7 0 false
    (by decide)
  have h6 := C2_setvalue_autocreate_gating df6 ['a'] ['1'] [] ['X'] 7 0 false
    (by decide)
  exact ⟨by decide, (h0.1 (by decide)).1, (h0.1 (by decide)).2.2.1,
    (h6.2 (by decide)).1, (h6.2 (by decide)).2.1, (h6.2 (by decide)).2.2.1⟩

/-- C3: `CreateKey` and `CreateSection` create the missing entity regardless
of the autocreate flags (the object's flag word is arbitrary here and is left
unchanged); in particular `CreateKey` into a non-existent section succeeds and
creates that section, and after creating an empty section `CreateKey` also
adds the missing key. -/
theorem C3_create_bypasses_flags (df : CDataFile)
    (szKey szValue c1 c2 c3 szSection : List Char)
    (hsec : GetSection df szSection = none) :
    CreateSection df szSection c1 =
      (true, { df with
        m_Sections := df.m_Sections ++ [⟨szSection, c1, []⟩],
        m_bDirty := true }) ∧
    (CreateKey df szKey szValue c2 szSection).1 = true ∧
    (CreateKey df szKey szValue c2 szSection).2.m_Sections =
      df.m_Sections ++ [⟨szSection, [], [⟨szKey, szValue, c2⟩]⟩] ∧
    (CreateKey df szKey szValue c2 szSection).2.m_Flags = df.m_Flags ∧
    (CreateKey ((CreateSection df szSection c1).2) szKey szValue c3 szSection).1 =
      true ∧
    KeyCount
        (CreateKey ((CreateSection df szSection c1).2) szKey szValue c3 szSection).2 =
      KeyCount ((CreateSection df szSection c1).2) + 1 := by
  have hcs : CreateSection df szSection c1 =
      (true, { df with
        m_Sections := df.m_Sections ++ [⟨szSection, c1, []⟩],
        m_bDirty := true }) := by
    simp only [CreateSection, hsec]
  have hck : CreateKey df szKey szValue c2 szSection =
      (true, { df with
        m_Sections := df.m_Sections ++ [⟨szSection, [], [⟨szKey, szValue, c2⟩]⟩],
        m_bDirty := true }) := by
    simp only [CreateKey, hsec]
  have hsec' : df.m_Sections.find? (fun sec => CompareNoCase sec.szName szSection) =
      none := hsec
  have hfind : ((df.m_Sections ++ [(⟨szSection, c1, []⟩ : t_Section)]).find?
      (fun sec => CompareNoCase sec.szName szSection)) =
      some (⟨szSection, c1, []⟩ : t_Section) := by
    rw [List.find?_append, hsec']
    simp [List.find?_cons, cnc_refl]
  have hgs1 : GetSection ({ df with
        m_Sections := df.m_Sections ++ [⟨szSection, c1, []⟩],
        m_bDirty := true })
      szSection = some ⟨szSection, c1, []⟩ := hfind
  refine ⟨hcs, by rw [hck], by rw [hck], by rw [hck], ?_, ?_⟩
  · simp only [hcs, CreateKey, hgs1]
    rw [if_neg (by simp)]
  · simp only [hcs, CreateKey, hgs1]
    rw [if_neg (by simp)]
    simp only [KeyCount]
    exact keyCountList_modifySec_append _ szSection _ (by rw [hfind]; rfl)

/-- C3 witness: creating into a missing section with all flags clear. -/
theorem C3_create_bypasses_flags_witness :
    GetSection df0 ['X'] = none ∧ df0.m_Flags = 0 ∧
      (CreateKey df0 ['a'] ['1'] [] ['X']).1 = true ∧
      (CreateKey df0 ['a'] ['1'] [] ['X']).2.m_Sections =
        df0.m_Sections ++ [⟨['X'], [], [⟨['a'], ['1'], []⟩]⟩] := by
  have h := C3_create_bypasses_flags df0 ['a'] ['1'] [] [] [] ['X'] (by decide)
  exact ⟨by decide, by decide, h.2.1, h.2.2.1⟩

/-- With pairwise distinct names, a successful first match means exactly one
match. -/
theorem countP_one_of_uniq {secs : List t_Section} {s : List Char}
    {sec : t_Section} (hu : uniqSecs secs = true)
    (hf : secs.find? (fun x => CompareNoCase x.szName s) = some sec) :
    secs.countP (fun x => CompareNoCase x.szName s) = 1 := by
  induction secs with
  | nil => simp at hf
  | cons a rest ih =>
    obtain ⟨h1, h2⟩ := uniqSecs_head_not hu
    rw [List.find?_cons] at hf
    by_cases hm : CompareNoCase a.szName s = true
    · have hrest : rest.countP (fun x => CompareNoCase x.szName s) = 0 := by
        rw [List.countP_eq_zero]
        intro y hy hcy
        have : CompareNoCase a.szName y.szName = true :=
          cnc_trans hm (cnc_symm hcy)
        rw [h1 y hy] at this
        cases this
      rw [List.countP_cons, hrest, hm]
      simp
    · have hm' : CompareNoCase a.szName s = false := by simpa using hm
      rw [hm'] at hf
      rw [List.countP_cons, hm', ih h2 hf]
      simp

/-- C5: on a document with (case-insensitively) unique section names, calling
`CreateSection` twice with names equal up to case leaves exactly one section
with that name; the second call returns `true` and changes nothing. -/
theorem C5_createsection_idempotent (df : CDataFile) (s s' c c' : List Char)
    (huniq : uniqSecs df.m_Sections = true) (hss : CompareNoCase s s' = true) :
    (CreateSection (CreateSection df s c).2 s' c').1 = true ∧
      (CreateSection (CreateSection df s c).2 s' c').2 =
        (CreateSection df s c).2 ∧
      ((CreateSection (CreateSection df s c).2 s' c').2.m_Sections.countP
        (fun sec => CompareNoCase sec.szName s)) = 1 := by
  have hpredS : (fun sec : t_Section => CompareNoCase sec.szName s) =
      (fun sec => CompareNoCase sec.szName s') :=
    funext fun sec => cnc_congr_right hss sec.szName
  cases hfind : GetSection df s with
  | some sec =>
    have hcs : CreateSection df s c = (true, df) := by
      simp only [CreateSection, hfind]
    have hfind' : GetSection df s' = some sec := by
      rw [GetSection, ← hpredS]
      exact hfind
    have hcs' : CreateSection df s' c' = (true, df) := by
      simp only [CreateSection, hfind']
    rw [hcs, hcs']
    refine ⟨rfl, rfl, ?_⟩
    exact countP_one_of_uniq huniq hfind
  | none =>
    have hcs : CreateSection df s c =
        (true, { df with
          m_Sections := df.m_Sections ++ [⟨s, c, []⟩],
          m_bDirty := true }) := by
      simp only [CreateSection, hfind]
    have hnone' : df.m_Sections.find? (fun sec => CompareNoCase sec.szName s') =
        none := by
      rw [← hpredS]
      exact hfind
    have hfind1 : GetSection ({ df with
          m_Sections := df.m_Sections ++ [⟨s, c, []⟩],
          m_bDirty := true }) s' =
        some ⟨s, c, []⟩ := by
      show (df.m_Sections ++ [(⟨s, c, []⟩ : t_Section)]).find?
        (fun sec => CompareNoCase sec.szName s') = some (⟨s, c, []⟩ : t_Section)
      rw [List.find?_append, hnone']
      simp [List.find?_cons, hss]
    have hcs' : CreateSection ({ df with
          m_Sections := df.m_Sections ++ [⟨s, c, []⟩],
          m_bDirty := true }) s' c' =
        (true, { df with
          m_Sections := df.m_Sections ++ [⟨s, c, []⟩],
          m_bDirty := true }) := by
      simp only [CreateSection, hfind1]
    rw [hcs, hcs']
    refine ⟨rfl, rfl, ?_⟩
    show ((df.m_Sections ++ [(⟨s, c, []⟩ : t_Section)]).countP
      (fun sec => CompareNoCase sec.szName s)) = 1
    rw [List.countP_append]
    have h0 : df.m_Sections.countP (fun sec => CompareNoCase sec.szName s) = 0 := by
      rw [List.countP_eq_zero]
      intro y hy hcy
      have := List.find?_eq_none.mp hfind y hy
      exact this hcy
    rw [h0, List.countP_cons]
    simp [cnc_refl]

/-- C5 witness: idempotent creation on a concrete document, second name
differing in case. -/
theorem C5_createsection_idempotent_witness :
    uniqSecs df0.m_Sections = true ∧ CompareNoCase ['S'] ['s'] = true ∧
      (CreateSection (CreateSection df0 ['S'] []).2 ['s'] ['c']).1 = true ∧
      (CreateSection (CreateSection df0 ['S'] []).2 ['s'] ['c']).2 =
        (CreateSection df0 ['S'] []).2 ∧
      ((CreateSection (CreateSection df0 ['S'] []).2 ['s'] ['c']).2.m_Sections.countP
        (fun sec => CompareNoCase sec.szName ['S'])) = 1 := by
  have h := C5_createsection_idempotent df0 ['S'] ['s'] [] ['c'] (by decide)
    (by decide)
  exact ⟨by decide, by decide, h.1, h.2.1, h.2.2⟩

/-- C6: the dirty flag is true after every successful mutation; `Save`
performs no write when the flag is clear (in particular immediately after a
`Load`), performs a write when it is set, and `ClearDirty` forces the
subsequent `Save` onto the no-write path. -/
theorem C6_dirty_gating (df : CDataFile) (k v c s fn : List Char)
    (ls : List (List Char)) :
    ((SetValue df k v c s).1 = true → (SetValue df k v c s).2.m_bDirty = true) ∧
    ((CreateKey df k v c s).1 = true → (CreateKey df k v c s).2.m_bDirty = true) ∧
    (GetSection df s = none → (CreateSection df s c).2.m_bDirty = true) ∧
    ((DeleteKey df k s).1 = true → (DeleteKey df k s).2.m_bDirty = true) ∧
    ((DeleteSection df s).1 = true → (DeleteSection df s).2.m_bDirty = true) ∧
    ((SetKeyComment df k c s).1 = true →
      (SetKeyComment df k c s).2.m_bDirty = true) ∧
    ((SetSectionComment df s c).1 = true →
      (SetSectionComment df s c).2.m_bDirty = true) ∧
    (df.m_bDirty = false → Save df = (none, df)) ∧
    (df.m_bDirty = true → (Save df).1 = some (SerializeLines df.m_Sections)) ∧
    Save (ClearDirty df) = (none, ClearDirty df) ∧
    Save (Load df fn (some ls)).2 = (none, (Load df fn (some ls)).2) := by
  refine ⟨?_, ?_, ?_, ?_, ?_, ?_, ?_, ?_, ?_, ?_, ?_⟩
  · intro h
    cases hgs : GetSection df s with
    | none =>
      simp only [SetValue, hgs] at h ⊢
      split_ifs at h ⊢
      all_goals simp_all
    | some sec =>
      simp only [SetValue, hgs] at h ⊢
      split_ifs at h ⊢
      all_goals simp_all
  · intro _
    cases hgs : GetSection df s with
    | none => simp [CreateKey, hgs]
    | some sec =>
      simp only [CreateKey, hgs]
      split_ifs <;> rfl
  · intro h
    simp [CreateSection, h]
  · intro h
    cases hdel : delKeySecs df.m_Sections k s with
    | none => simp [DeleteKey, hdel] at h
    | some secs => simp [DeleteKey, hdel]
  · intro h
    cases hdel : delSec df.m_Sections s with
    | none => simp [DeleteSection, hdel] at h
    | some secs => simp [DeleteSection, hdel]
  · intro h
    cases hset : setKeyCmtSecs df.m_Sections k c s with
    | none => simp [SetKeyComment, hset] at h
    | some secs => simp [SetKeyComment, hset]
  · intro h
    cases hset : setSecCmt df.m_Sections s c with
    | none => simp [SetSectionComment, hset] at h
    | some secs => simp [SetSectionComment, hset]
  · intro h
    rw [Save, if_neg (by simp [h])]
  · intro h
    rw [Save, if_pos h]
  · rw [Save, if_neg (by simp [ClearDirty])]
  · rw [Save, if_neg (by simp [Load])]

/-- C6 witness: concrete mutations each set the dirty flag, and the save
gate behaves as claimed on concrete dirty and clean objects. -/
theorem C6_dirty_gating_witness :
    (SetValue df6 ['a'] ['1'] [] ['X']).2.m_bDirty = true ∧
      (CreateKey df0 ['a'] ['1'] [] ['X']).2.m_bDirty = true ∧
      (CreateSection df0 ['X'] []).2.m_bDirty = true ∧
      (DeleteKey df0 ['h', 'o', 's', 't'] ['N', 'e', 't']).2.m_bDirty = true ∧
      (DeleteSection df0 ['N', 'e', 't']).2.m_bDirty = true ∧
      (SetKeyComment df0 ['h', 'o', 's', 't'] ['c'] ['N', 'e', 't']).2.m_bDirty =
        true ∧
      (SetSectionComment df0 ['N', 'e', 't'] ['c']).2.m_bDirty = true ∧
      Save df0 = (none, df0) ∧
      (Save dfDirty).1 = some (SerializeLines dfDirty.m_Sections) ∧
      Save (ClearDirty dfDirty) = (none, ClearDirty dfDirty) ∧
      Save (Load df0 [] (some sampleLines)).2 =
        (none, (Load df0 [] (some sampleLines)).2) := by
  obtain ⟨a1, -, -, -, -, -, -, -, -, -, -⟩ :=
    C6_dirty_gating df6 ['a'] ['1'] [] ['X'] [] []
  obtain ⟨-, b2, b3, -, -, -, -, b8, -, -, -⟩ :=
    C6_dirty_gating df0 ['a'] ['1'] [] ['X'] [] []
  obtain ⟨-, -, -, c4, c5, c6, c7, -, -, -, c11⟩ :=
    C6_dirty_gating df0 ['h', 'o', 's', 't'] ['1'] ['c'] ['N', 'e', 't'] []
      sampleLines
  obtain ⟨-, -, -, -, -, -, -, -, d9, d10, -⟩ :=
    C6_dirty_gating dfDirty ['a'] ['1'] [] ['X'] [] []
  exact ⟨a1 (by decide), b2 (by decide), b3 (by decide), c4 (by decide),
    c5 (by decide), c6 (by decide), c7 (by decide), b8 (by decide),
    d9 (by decide), d10, c11⟩

theorem Trim_replicate_k (n : Nat) :
    Trim (List.replicate n 'k') = List.replicate n 'k' := by
  cases n with
  | zero => rfl
  | succ m =>
    apply Trim_eq_self
    · intro x hx
      rw [List.replicate_succ] at hx
      simp at hx
      subst hx
      decide
    · intro x hx
      rw [List.replicate_succ'] at hx
      rw [List.getLast?_concat] at hx
      cases hx
      decide

/-- C10 (amended): `MAX_BUFFER_LEN` is defined as `512`, but the specified
load path processes lines of arbitrary length in full: an assignment line with
a key of any length `n` parses to the complete key.  The claim as stated
(lines longer than the limit are not processed in full) is refuted by
`C10_buffer_limit_counterexample`. -/
theorem C10_no_line_limit (n : Nat) :
    MAX_BUFFER_LEN = 512 ∧
      ParseLines [List.replicate n 'k' ++ ['=', 'v']] =
        [⟨[], [], [⟨List.replicate n 'k', ['v'], []⟩]⟩] := by
  refine ⟨rfl, ?_⟩
  have hg : goodKey ⟨List.replicate n 'k', ['v'], []⟩ := by
    refine ⟨Trim_replicate_k n, ?_, ?_, rfl, ?_, rfl⟩
    · intro x hx
      obtain ⟨-, rfl⟩ := List.mem_replicate.mp hx
      decide
    · cases n with
      | zero => rfl
      | succ m => rfl
    · cases n with
      | zero => rfl
      | succ m => rfl
  have e : parseLine ⟨[], none, []⟩ (List.replicate n 'k' ++ ['=', 'v']) =
      ⟨[⟨[], [], [⟨List.replicate n 'k', ['v'], []⟩]⟩], some 0, []⟩ :=
    parseLine_assign ⟨[], none, []⟩ hg
  rw [ParseLines, List.foldl_cons, List.foldl_nil, e]

set_option maxRecDepth 40000 in
/-- C10 counterexample: a 602-character line (longer than `MAX_BUFFER_LEN`)
is read and processed in full by the specified load path. -/
theorem C10_buffer_limit_counterexample :
    MAX_BUFFER_LEN < (List.replicate 600 'k' ++ ['=', 'v']).length ∧
      ParseLines [List.replicate 600 'k' ++ ['=', 'v']] =
        [⟨[], [], [⟨List.replicate 600 'k', ['v'], []⟩]⟩] := by
  decide
